import Mathlib

/-!
Verification of the image-build orchestration engine of `make_arch_iso_gui.py`
(`ISOBuilderThread`): the Manifest Builder (`_build_package_list`), the Build
Driver output loop, the Artifact Verifier, and the Local Repository
Synthesizer (AUR staging).

File contents are modelled as `List Char`.  Python string primitives used by
the source (`str.strip`, `str.rstrip`, `str.splitlines`, `str.lower`,
substring membership `in`) are embedded character-exactly below.  `splitlines`
is modelled for LF-separated text: every file this pipeline writes is written
with `newline=''` and explicit `"\n"` separators, and every line it writes
comes from a previous `splitlines`, so no other line separators occur.
-/

namespace ArchIso

/-- Whitespace as stripped by Python `str.strip()` / `str.rstrip()`
(space, tab, newline, carriage return, vertical tab, form feed). -/
def pySpace (c : Char) : Bool :=
  c == ' ' || c == '\t' || c == '\n' || c == '\r' || c == '\x0b' || c == '\x0c'

/-- Python `str.lstrip()`. -/
def lstripL (s : List Char) : List Char := s.dropWhile pySpace

/-- Python `str.rstrip()`. -/
def rstripL (s : List Char) : List Char := (s.reverse.dropWhile pySpace).reverse

/-- Python `str.strip()`. -/
def stripL (s : List Char) : List Char := lstripL (rstripL s)

/-- Split a character list at every newline; the result has one segment more
than the number of newlines (`str.split("\n")`), and is never empty. -/
def splitNl : List Char → List (List Char)
  | [] => [[]]
  | c :: cs =>
    if c == '\n' then [] :: splitNl cs
    else
      match splitNl cs with
      | [] => [[c]]
      | h :: t => (c :: h) :: t

/-- Drop a final empty segment, turning `str.split("\n")` into
`str.splitlines()` for LF-separated text. -/
def dropLastEmpty (p : List (List Char)) : List (List Char) :=
  match p.getLast? with
  | some [] => p.dropLast
  | _ => p

/-- Python `str.splitlines()` for LF-separated text. -/
def splitLinesL (c : List Char) : List (List Char) := dropLastEmpty (splitNl c)

/-- Python `"\n".join(lines)`. -/
def joinNl : List (List Char) → List Char
  | [] => []
  | [l] => l
  | l :: ls => l ++ '\n' :: joinNl ls

/-- Writing each element followed by `"\n"` (a sequence of
`f.write(f"{pkg}\n")` calls). -/
def joinTerm : List (List Char) → List Char
  | [] => []
  | l :: ls => l ++ '\n' :: joinTerm ls

/-- Concatenation of `splitNl` over a list of chunks. -/
def splitAll : List (List Char) → List (List Char)
  | [] => []
  | l :: ls => splitNl l ++ splitAll ls

/-- Test whether the needle occurs at the head of the haystack. -/
def headMatch : List Char → List Char → Bool
  | [], _ => true
  | _ :: _, [] => false
  | a :: as, b :: bs => a == b && headMatch as bs

/-- Python substring membership `needle in hay`. -/
def subL (needle : List Char) : List Char → Bool
  | [] => headMatch needle []
  | c :: cs => headMatch needle (c :: cs) || subL needle cs

/-- Python `str.lower()` (the source only matches ASCII keywords). -/
def lowerL (s : List Char) : List Char := s.map Char.toLower

/-- Lexicographic comparison on code points, as used by Python `sorted`
on strings. -/
def lexLe : List Char → List Char → Bool
  | [], _ => true
  | _ :: _, [] => false
  | a :: as, b :: bs => if a < b then true else if b < a then false else lexLe as bs

/-- Insertion into a sorted list. -/
def sortIns (x : List Char) : List (List Char) → List (List Char)
  | [] => [x]
  | y :: ys => if lexLe x y then x :: y :: ys else y :: sortIns x ys

/-- Insertion sort with `lexLe`. -/
def sortL (l : List (List Char)) : List (List Char) := l.foldr sortIns []

/-- Python `sorted(set(l))`: the sorted list of the distinct elements. -/
def sortDedupL (l : List (List Char)) : List (List Char) := sortL l.dedup

/-! ## Manifest Builder (`ISOBuilderThread._build_package_list`) -/

/-- The fixed `required_packages` set of `_build_package_list`. -/
def requiredPackages : List (List Char) :=
  ["mkinitcpio".data, "mkinitcpio-archiso".data, "squashfs-tools".data,
   "linux".data, "linux-firmware".data, "base".data]

/-- Test for `stripped.startswith('#')`. -/
def hashStart : List Char → Bool
  | '#' :: _ => true
  | _ => false

/-- The package token of a manifest line: its `strip()`, provided the result
is non-empty and not a comment (`if stripped and not stripped.startswith('#')`). -/
def lineTok (l : List Char) : Option (List Char) :=
  let s := stripL l
  if s.isEmpty then none
  else if hashStart s then none
  else some s

/-- The `base_packages` list read from the profile's package file. -/
def baseTokens (c : List Char) : List (List Char) :=
  (splitLinesL c).filterMap lineTok

/-- `excluded_effective = excluded_set - required_packages`. -/
def effectiveExclusions (excluded : List (List Char)) : List (List Char) :=
  excluded.filter (fun p => decide (p ∉ requiredPackages))

/-- `base_lines_filtered`: base lines with effectively-excluded package lines
removed and comment/blank lines preserved. -/
def baseLinesFiltered (c : List Char) (excluded : List (List Char)) :
    List (List Char) :=
  (splitLinesL c).filter (fun l =>
    match lineTok l with
    | some t => decide (t ∉ effectiveExclusions excluded)
    | none => true)

/-- `custom_packages`: candidates with non-empty strip, not effectively
excluded, not already in the base package set, deduplicated and sorted. -/
def customAdditions (c : List Char) (packages excluded : List (List Char)) :
    List (List Char) :=
  sortDedupL
    (((packages.filter (fun p =>
        !(stripL p).isEmpty && decide (p ∉ effectiveExclusions excluded))).filter
      (fun p => decide (p ∉ baseTokens c))))

/-- `required_missing = sorted(required_packages - (set(custom_packages) | base_package_set))`. -/
def requiredMissing (c : List Char) (packages excluded : List (List Char)) :
    List (List Char) :=
  sortDedupL
    (requiredPackages.filter (fun r =>
      decide (r ∉ customAdditions c packages excluded) &&
      decide (r ∉ baseTokens c)))

/-- The comment line written before the additions block. -/
def addedHeader : List Char := "# Added from current system".data

/-- The bytes written back to `packages.x86_64` by `_build_package_list`:
the filtered base lines joined, right-stripped, newline-terminated (written
only when the filtered list is non-empty), then — when there is anything to
add — a blank line, the additions header, and one line per required-missing
and custom package. -/
def manifestContent (c : List Char) (packages excluded : List (List Char)) :
    List Char :=
  let blf := baseLinesFiltered c excluded
  let rm := requiredMissing c packages excluded
  let cu := customAdditions c packages excluded
  (if blf.isEmpty then [] else rstripL (joinNl blf) ++ ['\n']) ++
  (if rm.isEmpty && cu.isEmpty then []
   else '\n' :: (addedHeader ++ '\n' :: joinTerm (rm ++ cu)))

/-- `pkg_lines`: the re-read of the written file (stripped, non-blank,
non-comment lines) — the authoritative manifest. -/
def manifestPkgLines (c : List Char) (packages excluded : List (List Char)) :
    List (List Char) :=
  (splitLinesL (manifestContent c packages excluded)).filterMap lineTok

/-- The `missing_critical` list computed after `_build_package_list` returns
(`ISOBuilderThread.run`, the post-build required-package check); a non-empty
result raises the `RequiredPackageMissingAfterBuild` `ValueError`. -/
def missingCritical (pkgLines : List (List Char)) : List (List Char) :=
  requiredPackages.filter (fun r => decide (r ∉ pkgLines))

/-! ## Build Driver output loop (`ISOBuilderThread.run`, mkarchiso stream)

The loop reads every line of the merged stdout/stderr stream, records fatal
signals in `error_detected`, and emits progress milestones matched from the
lowered line.  The subprocess is never terminated by the loop; after the
stream is exhausted the code calls `self.process.wait()`. -/

/-- The `non_fatal_patterns` allowlist (compared against the lowered line). -/
def nonFatalPatterns : List String :=
  ["/boot/grub/grub.cfg.new: no such file or directory",
   "running in chroot",
   "skipped: running in chroot",
   "errors were encountered during the build. the image may not be complete"]

/-- The error-like keywords searched in the lowered line. -/
def errorKeywords : List String :=
  ["error:", "failed", "fatal:", "cannot", "unable"]

/-- Classification of one output line as a fatal signal: not on the non-fatal
allowlist, contains an error keyword, and does not contain `warning`. -/
def isFatalLine (line : String) : Bool :=
  let ll := lowerL line.data
  !(nonFatalPatterns.any (fun p => subL p.data ll)) &&
  (errorKeywords.any (fun k => subL k.data ll)) &&
  !(subL "warning".data ll)

/-- The progress milestone emitted for one output line, if any
(the if/elif chain over the lowered line). -/
def lineMilestone (line : String) : Option Nat :=
  let ll := lowerL line.data
  if subL "squashfs".data ll && (subL "creating".data ll || subL "created".data ll) then
    some 80
  else if subL "iso".data ll && subL "creating".data ll then some 90
  else if subL "packages".data ll && subL "installing".data ll then some 50
  else if subL "building".data ll && subL "airootfs".data ll then some 60
  else none

/-- State of the output loop: the fatal-signal record and the sequence of
progress values emitted so far. -/
structure DriveState where
  errorDetected : Bool
  events : List Nat
  deriving Repr, DecidableEq

/-- Processing of a single subprocess output line. -/
def stepLine (st : DriveState) (line : String) : DriveState :=
  { errorDetected := st.errorDetected || isFatalLine line,
    events := st.events ++ (match lineMilestone line with
      | some p => [p]
      | none => []) }

/-- The whole output loop over the stream of subprocess lines. -/
def driveLines (lines : List String) : DriveState :=
  lines.foldl stepLine ⟨false, []⟩

/-! ## Artifact Verifier (`ISOBuilderThread.run` after `process.wait()`)

Inputs are the data the verification code inspects: the subprocess exit code,
the `*.iso` glob of the output directory (file name and size in bytes), the
`*.squashfs` searches of the build directory and of the output `arch/`
subdirectory (sizes in bytes), and the Build Driver's fatal-signal record.
Sizes are exact byte counts: the source computes `st_size / 1024**3` in IEEE
double arithmetic, where division by the power of two is exact, so
`size_gb > 1.0` and `size_gb < 1.0` decide exactly as `bytes > 2^30` and
`bytes < 2^30`; and `squash_gb < 0.1` decides, for every possible byte count,
exactly as the rational comparison `10 * bytes < 2^30` (both hold iff
`bytes ≤ 107374182`).  The `file`-signature inspection is log-only in the
source (it affects no outcome) and is not modelled. -/

structure VerifyInput where
  returncode : Int
  isoFiles : List (String × Nat)
  buildSquash : List Nat
  archDirExists : Bool
  archSquash : List Nat
  errorDetected : Bool

/-- One binary gigabyte (`1024**3`), the denominator of the size conversions
and the `1.0 GB` threshold. -/
def gigabyte : Nat := 1073741824

/-- The squashfs search: the build tree first, then — only when nothing was
found there and the directory exists — the output tree's `arch` subdirectory. -/
def squashSearch (inp : VerifyInput) : List Nat :=
  if inp.buildSquash.isEmpty then
    (if inp.archDirExists then inp.archSquash else [])
  else inp.buildSquash

/-- Warning emitted for a suspiciously small squashfs payload. -/
def smallSquashWarn : String :=
  "Squashfs file is very small - may be corrupted or empty!"

/-- Warning emitted for a suspiciously small image with no payload found. -/
def smallIsoWarn : String :=
  "ISO size is suspiciously small. Squashfs may be missing."

/-- The verification outcome: the `finished_signal` payload (success flag and
reason/artifact-path string) plus the `[WARN]` size messages emitted.  The
fatal-signal record is only echoed into the log on the failure path; it never
enters the outcome computation. -/
def verifyRun (inp : VerifyInput) : Bool × String × List String :=
  match inp.isoFiles with
  | [] =>
    if inp.returncode = 0 then
      (false, "ISO file not found in output directory", [])
    else
      (false, "Build process failed with exit code " ++ toString inp.returncode, [])
  | (name, size) :: _ =>
    let sq := squashSearch inp
    let squashfsFound := !sq.isEmpty || decide (size > gigabyte)
    let warns :=
      (if !sq.isEmpty && decide (10 * sq.headD 0 < gigabyte) then [smallSquashWarn]
       else []) ++
      (if sq.isEmpty && !decide (size > gigabyte) then [smallIsoWarn] else [])
    if !squashfsFound && decide (size < gigabyte) then
      (false, "ISO verification failed - may not boot", warns)
    else
      (true, name, warns)

/-! ## Package classification and Local Repository Synthesizer
(`ISOBuilderThread.run`, the `include_custom` branch)

The external collaborators are an environment: per package name, whether
`pacman -Si` succeeds (repository-backed), whether `pacman -Ql` succeeds,
and the `/var/cache/pacman/pkg/` glob result for `f"{pkg}-*.pkg.tar.*"`
as (file name, mtime) pairs. -/

structure StageEnv where
  siOk : String → Bool
  qlOk : String → Bool
  cacheFiles : String → List (String × Nat)

/-- The non-repository (AUR-like) sublist of the installed-package inventory:
non-blank names for which `pacman -Si` fails. -/
def classifyAur (env : StageEnv) (allPkgs : List String) : List String :=
  (allPkgs.filter (fun p => !(stripL p.data).isEmpty)).filter
    (fun p => !env.siOk p)

/-- The repository-backed sublist: non-blank names for which `pacman -Si`
succeeds. -/
def classifyRepo (env : StageEnv) (allPkgs : List String) : List String :=
  (allPkgs.filter (fun p => !(stripL p.data).isEmpty)).filter
    (fun p => env.siOk p)

/-- The most recent cache file: `sorted(pkg_files, key=mtime)[-1]` (the stable
sort makes ties resolve to the later glob entry). -/
def latestFile (fs : List (String × Nat)) : Option (String × Nat) :=
  fs.foldl (fun acc f =>
    match acc with
    | none => some f
    | some g => if g.2 ≤ f.2 then some f else some g) none

/-- The staging loop over the AUR-like packages: per package, when
`pacman -Ql` succeeds, either copy the most recent cache artifact
(`successfully_copied_aur`) or record the package as failed-to-stage
(`failed_aur_packages`); when `pacman -Ql` fails, do neither.  Returns
(copied packages, failed packages, copied artifact file names). -/
def stageResult (env : StageEnv) (aurPkgs : List String) :
    List String × List String × List String :=
  aurPkgs.foldl (fun acc p =>
    if env.qlOk p then
      match latestFile (env.cacheFiles p) with
      | some f => (acc.1 ++ [p], acc.2.1, acc.2.2 ++ [f.1])
      | none => (acc.1, acc.2.1 ++ [p], acc.2.2)
    else acc) ([], [], [])

/-- The final package selection passed to the Manifest Builder:
`repo_packages + successfully_copied_aur`, each with the user exclusions
filtered out (the source only runs the filters when the exclusion set is
non-empty; filtering by an empty set is the identity, so the unconditional
filter is equivalent). -/
def finalSelection (env : StageEnv) (allPkgs excluded : List String) :
    List String :=
  (classifyRepo env allPkgs).filter (fun p => decide (p ∉ excluded)) ++
  (stageResult env (classifyAur env allPkgs)).1.filter
    (fun p => decide (p ∉ excluded))

/-- Test whether a file name matches the `*.pkg.tar.*` glob of the staged
local-repository directory (every cache artifact copied there does, since it
was found by a `f"{pkg}-*.pkg.tar.*"` glob). -/
def matchesPkgTar (name : String) : Bool :=
  subL ".pkg.tar.".data name.data

/-- The repository-index step after staging: the whole staging block runs only
when there are AUR-like packages; the local-repo directory is freshly created
inside the wiped work tree, so its `*.pkg.tar.*` glob returns exactly the
copied artifacts; `repo-add` runs and the `[local-repo]` stanza is appended to
the staged `pacman.conf` exactly when that glob is non-empty.  Returns
(index created, indexed artifact names, stanza appended). -/
def synthRepo (env : StageEnv) (aurPkgs : List String) :
    Bool × List String × Bool :=
  if aurPkgs.isEmpty then (false, [], false)
  else if ((stageResult env aurPkgs).2.2.filter matchesPkgTar).isEmpty then
    (false, [], false)
  else (true, (stageResult env aurPkgs).2.2.filter matchesPkgTar, true)

/-! ## Lemmas about the string primitives -/

theorem splitNl_ne_nil (c : List Char) : splitNl c ≠ [] := by
  cases c with
  | nil => simp [splitNl]
  | cons a cs =>
    simp only [splitNl]
    split
    · simp
    · split <;> simp

theorem splitNl_append (p rest : List Char) :
    splitNl (p ++ '\n' :: rest) = splitNl p ++ splitNl rest := by
  induction p with
  | nil => simp [splitNl]
  | cons a as ih =>
    by_cases ha : a = '\n'
    · subst ha
      show splitNl ('\n' :: (as ++ '\n' :: rest)) = _
      rw [show splitNl ('\n' :: (as ++ '\n' :: rest)) =
            [] :: splitNl (as ++ '\n' :: rest) from by simp [splitNl], ih]
      simp [splitNl]
    · have hb : (a == '\n') = false := by simp [ha]
      cases h : splitNl as with
      | nil => exact absurd h (splitNl_ne_nil as)
      | cons h' t =>
        show splitNl (a :: (as ++ '\n' :: rest)) = _
        simp only [splitNl, hb, Bool.false_eq_true, if_false, ih, h,
          List.cons_append]

theorem joinNl_splitNl (c : List Char) : joinNl (splitNl c) = c := by
  induction c with
  | nil => simp [splitNl, joinNl]
  | cons a cs ih =>
    by_cases ha : a = '\n'
    · subst ha
      simp only [splitNl, beq_self_eq_true, if_true]
      cases h : splitNl cs with
      | nil => exact absurd h (splitNl_ne_nil cs)
      | cons h' t =>
        rw [h] at ih
        simp [joinNl, ih]
    · have hb : (a == '\n') = false := by simp [ha]
      simp only [splitNl, hb, Bool.false_eq_true, if_false]
      cases h : splitNl cs with
      | nil => exact absurd h (splitNl_ne_nil cs)
      | cons h' t =>
        rw [h] at ih
        cases t with
        | nil => simpa [joinNl] using congrArg (a :: ·) ih
        | cons t0 ts => simpa [joinNl] using congrArg (a :: ·) ih

theorem nl_not_mem_splitNl (c : List Char) :
    ∀ l ∈ splitNl c, '\n' ∉ l := by
  induction c with
  | nil =>
    intro l hl
    simp [splitNl] at hl
    simp [hl]
  | cons a cs ih =>
    intro l hl
    by_cases ha : a = '\n'
    · subst ha
      simp only [splitNl, beq_self_eq_true, if_true, List.mem_cons] at hl
      rcases hl with rfl | hl
      · simp
      · exact ih l hl
    · have hb : (a == '\n') = false := by simp [ha]
      simp only [splitNl, hb, Bool.false_eq_true, if_false] at hl
      cases h : splitNl cs with
      | nil => exact absurd h (splitNl_ne_nil cs)
      | cons h' t =>
        rw [h] at hl
        simp only [List.mem_cons] at hl
        rcases hl with rfl | hl
        · intro hmem
          rcases List.mem_cons.mp hmem with h1 | h1
          · exact ha h1.symm
          · exact ih h' (by simp [h]) h1
        · exact ih l (by simp [h, hl])

theorem splitNl_eq_single {l : List Char} (h : '\n' ∉ l) : splitNl l = [l] := by
  induction l with
  | nil => simp [splitNl]
  | cons a as ih =>
    have ha : a ≠ '\n' := fun hc => h (hc ▸ List.mem_cons_self a as)
    have hb : (a == '\n') = false := by simp [ha]
    have has : '\n' ∉ as := fun hc => h (List.mem_cons_of_mem a hc)
    simp only [splitNl, hb, Bool.false_eq_true, if_false, ih has]

theorem splitAll_append (l₁ l₂ : List (List Char)) :
    splitAll (l₁ ++ l₂) = splitAll l₁ ++ splitAll l₂ := by
  induction l₁ with
  | nil => simp [splitAll]
  | cons a as ih => simp [splitAll, ih]

theorem splitNl_joinTerm (ls : List (List Char)) (rest : List Char) :
    splitNl (joinTerm ls ++ rest) = splitAll ls ++ splitNl rest := by
  induction ls with
  | nil => simp [joinTerm, splitAll]
  | cons l t ih =>
    simp only [joinTerm, splitAll, List.append_assoc, List.cons_append]
    rw [splitNl_append, ih]

theorem splitAll_clean {ls : List (List Char)} (h : ∀ l ∈ ls, '\n' ∉ l) :
    splitAll ls = ls := by
  induction ls with
  | nil => rfl
  | cons a as ih =>
    simp only [splitAll, splitNl_eq_single (h a (List.mem_cons_self a as)),
      List.singleton_append, List.cons_inj_right]
    exact ih fun l hl => h l (List.mem_cons_of_mem a hl)

theorem joinNl_concat {X : List (List Char)} (hX : X ≠ []) (l : List Char) :
    joinNl (X ++ [l]) = joinNl X ++ '\n' :: l := by
  induction X with
  | nil => exact absurd rfl hX
  | cons a as ih =>
    cases as with
    | nil => simp [joinNl]
    | cons b bs =>
      have h2 : joinNl ((b :: bs) ++ [l]) = joinNl (b :: bs) ++ '\n' :: l :=
        ih (by simp)
      have h3 : (a :: b :: bs) ++ [l] = a :: ((b :: bs) ++ [l]) := rfl
      rw [h3]
      show a ++ '\n' :: joinNl ((b :: bs) ++ [l]) = _
      rw [h2]
      simp [joinNl]

theorem splitNl_joinNl_cons {T : List (List Char)} (hT : T ≠ [])
    (hclean : ∀ l ∈ T, '\n' ∉ l) (rest : List Char) :
    splitNl (joinNl T ++ '\n' :: rest) = T ++ splitNl rest := by
  induction T with
  | nil => exact absurd rfl hT
  | cons a as ih =>
    cases as with
    | nil =>
      simp only [joinNl, List.singleton_append]
      rw [splitNl_append, splitNl_eq_single (hclean a (by simp))]
      rfl
    | cons b bs =>
      have step : joinNl (a :: b :: bs) = a ++ '\n' :: joinNl (b :: bs) := rfl
      rw [step, List.append_assoc, List.cons_append, splitNl_append,
        splitNl_eq_single (hclean a (by simp)),
        ih (by simp) (fun l hl => hclean l (List.mem_cons_of_mem a hl))]
      rfl

theorem dropLastEmpty_concat (X : List (List Char)) :
    dropLastEmpty (X ++ [[]]) = X := by
  simp [dropLastEmpty, List.getLast?_concat, List.dropLast_concat]

theorem rstripL_append (a b : List Char) :
    rstripL (a ++ b) = if rstripL b = [] then rstripL a else a ++ rstripL b := by
  have hiff : rstripL b = [] ↔ List.dropWhile pySpace b.reverse = [] := by
    unfold rstripL
    exact List.reverse_eq_nil_iff
  by_cases h : List.dropWhile pySpace b.reverse = []
  · rw [if_pos (hiff.mpr h)]
    unfold rstripL
    rw [List.reverse_append, List.dropWhile_append, if_pos (by simp [h])]
  · rw [if_neg (fun hc => h (hiff.mp hc))]
    unfold rstripL
    rw [List.reverse_append, List.dropWhile_append, if_neg (by simp [h]),
      List.reverse_append, List.reverse_reverse]

theorem dropWhile_dropWhile (p : Char → Bool) (l : List Char) :
    List.dropWhile p (List.dropWhile p l) = List.dropWhile p l := by
  induction l with
  | nil => rfl
  | cons a as ih =>
    by_cases h : p a
    · simp [List.dropWhile_cons, h, ih]
    · simp [List.dropWhile_cons, h]

theorem rstripL_idem (s : List Char) : rstripL (rstripL s) = rstripL s := by
  unfold rstripL
  rw [List.reverse_reverse, dropWhile_dropWhile]

theorem stripL_rstripL (s : List Char) : stripL (rstripL s) = stripL s := by
  unfold stripL
  rw [rstripL_idem]

theorem mem_rstripL {a : Char} {l : List Char} (h : a ∈ rstripL l) : a ∈ l := by
  unfold rstripL at h
  rw [List.mem_reverse] at h
  have := (List.dropWhile_suffix pySpace).sublist.subset h
  rwa [List.mem_reverse] at this

theorem lineTok_rstripL (l : List Char) : lineTok (rstripL l) = lineTok l := by
  simp [lineTok, stripL_rstripL]

theorem lineTok_of_ws {l : List Char} (h : rstripL l = []) : lineTok l = none := by
  have hs : stripL l = [] := by
    unfold stripL
    rw [h]
    rfl
  simp [lineTok, hs]

theorem rstripL_eq_self {p : List Char} (h1 : stripL p = p) : rstripL p = p := by
  have l1 : (stripL p).length ≤ (rstripL p).length :=
    (List.dropWhile_suffix pySpace).sublist.length_le
  have l1' : p.length ≤ (rstripL p).length := by
    rw [h1] at l1
    exact l1
  have l2 : (rstripL p).length ≤ p.length := by
    unfold rstripL
    rw [List.length_reverse]
    have := (@List.dropWhile_suffix Char p.reverse pySpace).sublist.length_le
    rwa [List.length_reverse] at this
  have hlen : (List.dropWhile pySpace p.reverse).length = p.reverse.length := by
    have e1 : (rstripL p).length = p.length := le_antisymm l2 l1'
    unfold rstripL at e1
    rw [List.length_reverse] at e1 ⊢
    exact e1
  have := (@List.dropWhile_suffix Char p.reverse pySpace).eq_of_length hlen
  unfold rstripL
  rw [this, List.reverse_reverse]

/-! ## Trailing trim: the line-level effect of `"\n".join(lines).rstrip()` -/

/-- Helper on the reversed line list: drop all-whitespace lines, then
right-strip the first surviving line. -/
def trimRev : List (List Char) → List (List Char)
  | [] => []
  | l :: ls => if rstripL l = [] then trimRev ls else rstripL l :: ls

/-- The line-level effect of `"\n".join(lines).rstrip()` on a non-empty line
list: trailing all-whitespace lines disappear, the last surviving line is
right-stripped, and if nothing survives a single empty line remains (the
written base part is then just `"\n"`). -/
def trimTrail (ls : List (List Char)) : List (List Char) :=
  if ls.isEmpty then []
  else
    match trimRev ls.reverse with
    | [] => [[]]
    | ms => ms.reverse

theorem trimRev_cons_ws {l : List Char} {ls : List (List Char)}
    (hws : rstripL l = []) : trimRev (l :: ls) = trimRev ls := by
  simp [trimRev, hws]

theorem trimRev_cons_keep {l : List Char} {ls : List (List Char)}
    (hws : rstripL l ≠ []) : trimRev (l :: ls) = rstripL l :: ls := by
  simp [trimRev, hws]

theorem trimTrail_append_ws {init : List (List Char)} {l : List Char}
    (hinit : init ≠ []) (hws : rstripL l = []) :
    trimTrail (init ++ [l]) = trimTrail init := by
  unfold trimTrail
  rw [if_neg (by simp), if_neg (by simp [hinit]), List.reverse_append,
    List.reverse_singleton, List.singleton_append, trimRev_cons_ws hws]

theorem trimTrail_append_keep {init : List (List Char)} {l : List Char}
    (hws : rstripL l ≠ []) :
    trimTrail (init ++ [l]) = init ++ [rstripL l] := by
  unfold trimTrail
  rw [if_neg (by simp), List.reverse_append, List.reverse_singleton,
    List.singleton_append, trimRev_cons_keep hws]
  cases hr : rstripL l :: init.reverse with
  | nil => simp at hr
  | cons m ms =>
    rw [← hr]
    simp

theorem trimTrail_single_ws {l : List Char} (hws : rstripL l = []) :
    trimTrail [l] = [[]] := by
  unfold trimTrail
  rw [if_neg (by simp), List.reverse_singleton, trimRev_cons_ws hws]
  rfl

theorem rstripL_joinNl (ls : List (List Char)) (h : ls ≠ []) :
    rstripL (joinNl ls) = joinNl (trimTrail ls) := by
  induction ls using List.reverseRecOn with
  | nil => exact absurd rfl h
  | append_singleton init l ih =>
    by_cases hws : rstripL l = []
    · cases hinit : init with
      | nil =>
        subst hinit
        rw [List.nil_append, trimTrail_single_ws hws]
        show rstripL l = joinNl [[]]
        rw [hws]
        rfl
      | cons i0 is =>
        rw [← hinit]
        have hinit' : init ≠ [] := by simp [hinit]
        rw [joinNl_concat hinit' l, rstripL_append]
        have hnl : rstripL ('\n' :: l) = [] := by
          rw [show '\n' :: l = ['\n'] ++ l from rfl, rstripL_append, if_pos hws]
          rfl
        rw [if_pos hnl, ih hinit', trimTrail_append_ws hinit' hws]
    · rw [trimTrail_append_keep hws]
      cases hinit : init with
      | nil =>
        subst hinit
        rw [List.nil_append, List.nil_append]
        show rstripL (joinNl [l]) = joinNl [rstripL l]
        rfl
      | cons i0 is =>
        rw [← hinit]
        have hinit' : init ≠ [] := by simp [hinit]
        have hnl : rstripL ('\n' :: l) = '\n' :: rstripL l := by
          rw [show '\n' :: l = ['\n'] ++ l from rfl, rstripL_append, if_neg hws]
          rfl
        rw [joinNl_concat hinit' l, rstripL_append, if_neg (by rw [hnl]; simp),
          hnl, joinNl_concat hinit']

theorem trimTrail_ne_nil {ls : List (List Char)} (h : ls ≠ []) :
    trimTrail ls ≠ [] := by
  unfold trimTrail
  rw [if_neg (by simp [h])]
  cases htr : trimRev ls.reverse with
  | nil => simp
  | cons m ms => simp

theorem tokens_trimTrail (ls : List (List Char)) :
    (trimTrail ls).filterMap lineTok = ls.filterMap lineTok := by
  induction ls using List.reverseRecOn with
  | nil => rfl
  | append_singleton init l ih =>
    by_cases hws : rstripL l = []
    · have htok : lineTok l = none := lineTok_of_ws hws
      cases hinit : init with
      | nil =>
        subst hinit
        rw [List.nil_append, trimTrail_single_ws hws]
        have h0 : lineTok ([] : List Char) = none := rfl
        simp [List.filterMap_cons, h0, htok]
      | cons i0 is =>
        rw [← hinit]
        have hinit' : init ≠ [] := by simp [hinit]
        rw [trimTrail_append_ws hinit' hws, ih, List.filterMap_append]
        simp [List.filterMap_cons, htok]
    · rw [trimTrail_append_keep hws, List.filterMap_append, List.filterMap_append]
      simp [List.filterMap_cons, lineTok_rstripL]

theorem mem_trimRev {x : List Char} :
    ∀ {rls : List (List Char)}, x ∈ trimRev rls →
      ∃ y ∈ rls, x = y ∨ x = rstripL y := by
  intro rls
  induction rls with
  | nil =>
    intro hx
    simp [trimRev] at hx
  | cons a as ih =>
    intro hx
    by_cases hws : rstripL a = []
    · rw [trimRev_cons_ws hws] at hx
      obtain ⟨y, hy, hxy⟩ := ih hx
      exact ⟨y, List.mem_cons_of_mem a hy, hxy⟩
    · rw [trimRev_cons_keep hws] at hx
      rcases List.mem_cons.mp hx with rfl | hx'
      · exact ⟨a, List.mem_cons_self a as, Or.inr rfl⟩
      · exact ⟨x, List.mem_cons_of_mem a hx', Or.inl rfl⟩

theorem noNl_trimTrail {ls : List (List Char)} (h : ∀ l ∈ ls, '\n' ∉ l) :
    ∀ l ∈ trimTrail ls, '\n' ∉ l := by
  intro l hl
  unfold trimTrail at hl
  by_cases hls : ls.isEmpty
  · rw [if_pos hls] at hl
    simp at hl
  · rw [if_neg hls] at hl
    have hl' : l ∈ trimRev ls.reverse ∨ l = [] := by
      revert hl
      cases htr : trimRev ls.reverse with
      | nil =>
        intro hl
        have h1 : l ∈ [([] : List Char)] := hl
        right
        simpa using h1
      | cons m ms =>
        intro hl
        have h1 : l ∈ (m :: ms).reverse := hl
        left
        exact List.mem_reverse.mp h1
    rcases hl' with hl' | rfl
    · obtain ⟨y, hy, hxy⟩ := mem_trimRev hl'
      rw [List.mem_reverse] at hy
      cases hxy with
      | inl h1 =>
        rw [h1]
        exact h y hy
      | inr h1 =>
        rw [h1]
        exact fun hc => h y hy (mem_rstripL hc)
    · simp

/-! ## Lemmas about `sorted(set(...))` -/

theorem mem_sortIns {x a : List Char} {l : List (List Char)} :
    x ∈ sortIns a l ↔ x = a ∨ x ∈ l := by
  induction l with
  | nil => simp [sortIns]
  | cons y ys ih =>
    by_cases hle : lexLe a y
    · simp [sortIns, hle]
    · simp only [sortIns, hle, Bool.false_eq_true, if_false, List.mem_cons, ih]
      tauto

theorem mem_sortL {x : List Char} {l : List (List Char)} :
    x ∈ sortL l ↔ x ∈ l := by
  induction l with
  | nil => simp [sortL]
  | cons a as ih =>
    simp only [sortL, List.foldr_cons, mem_sortIns, List.mem_cons]
    rw [show List.foldr sortIns [] as = sortL as from rfl, ih]

theorem mem_sortDedupL {x : List Char} {l : List (List Char)} :
    x ∈ sortDedupL l ↔ x ∈ l := by
  unfold sortDedupL
  rw [mem_sortL, List.mem_dedup]

theorem nodup_sortIns {a : List Char} {l : List (List Char)}
    (ha : a ∉ l) (hl : l.Nodup) : (sortIns a l).Nodup := by
  induction l with
  | nil => simp [sortIns]
  | cons y ys ih =>
    by_cases hle : lexLe a y
    · simp only [sortIns, hle, if_true]
      exact List.nodup_cons.mpr ⟨ha, hl⟩
    · simp only [sortIns, hle, Bool.false_eq_true, if_false]
      have hy : y ∉ sortIns a ys := by
        rw [mem_sortIns]
        rintro (rfl | hmem)
        · exact ha (List.mem_cons_self y ys)
        · exact (List.nodup_cons.mp hl).1 hmem
      exact List.nodup_cons.mpr
        ⟨hy, ih (fun hc => ha (List.mem_cons_of_mem y hc))
          (List.nodup_cons.mp hl).2⟩

theorem nodup_sortL {l : List (List Char)} (h : l.Nodup) : (sortL l).Nodup := by
  induction l with
  | nil => simp [sortL]
  | cons a as ih =>
    have h' := List.nodup_cons.mp h
    show (sortIns a (sortL as)).Nodup
    exact nodup_sortIns (fun hc => h'.1 (mem_sortL.mp hc)) (ih h'.2)

theorem nodup_sortDedupL (l : List (List Char)) : (sortDedupL l).Nodup :=
  nodup_sortL (List.nodup_dedup l)

/-! ## Structure of the written manifest -/

/-- The lines of the written manifest file, before re-reading: the trimmed
filtered base lines, then — when there are additions — a blank line, the
additions header, and the split additions. -/
def manifestLines (c : List Char) (packages excluded : List (List Char)) :
    List (List Char) :=
  let blf := baseLinesFiltered c excluded
  let rm := requiredMissing c packages excluded
  let cu := customAdditions c packages excluded
  (if blf.isEmpty then [] else trimTrail blf) ++
  (if rm.isEmpty && cu.isEmpty then []
   else [] :: addedHeader :: splitAll (rm ++ cu))

theorem noNl_splitLinesL (c : List Char) : ∀ l ∈ splitLinesL c, '\n' ∉ l := by
  intro l hl
  unfold splitLinesL dropLastEmpty at hl
  have hmem : l ∈ splitNl c := by
    revert hl
    cases (splitNl c).getLast? with
    | none => exact fun hl => hl
    | some x =>
      cases x with
      | nil => exact fun hl => (List.dropLast_sublist (splitNl c)).subset hl
      | cons a as => exact fun hl => hl
  exact nl_not_mem_splitNl c l hmem

theorem mem_splitLinesL {c : List Char} {l : List Char}
    (h : l ∈ splitLinesL c) : l ∈ splitNl c := by
  unfold splitLinesL dropLastEmpty at h
  revert h
  cases (splitNl c).getLast? with
  | none => exact fun h => h
  | some x =>
    cases x with
    | nil => exact fun h => (List.dropLast_sublist (splitNl c)).subset h
    | cons a as => exact fun h => h

theorem splitNl_manifestContent (c : List Char)
    (packages excluded : List (List Char)) :
    splitNl (manifestContent c packages excluded) =
      manifestLines c packages excluded ++ [[]] := by
  unfold manifestContent manifestLines
  dsimp only
  have hclean : ∀ l ∈ baseLinesFiltered c excluded, '\n' ∉ l := by
    intro l hl
    exact noNl_splitLinesL c l ((List.filter_sublist _).subset hl)
  by_cases hblf : (baseLinesFiltered c excluded).isEmpty
  · rw [if_pos hblf, if_pos hblf, List.nil_append, List.nil_append]
    by_cases hadd : (requiredMissing c packages excluded).isEmpty &&
        (customAdditions c packages excluded).isEmpty
    · rw [if_pos hadd, if_pos hadd]
      rfl
    · rw [if_neg hadd, if_neg hadd]
      have e1 : splitNl ('\n' :: (addedHeader ++ '\n' ::
          joinTerm (requiredMissing c packages excluded ++
            customAdditions c packages excluded))) =
          [] :: splitNl (addedHeader ++ '\n' ::
            joinTerm (requiredMissing c packages excluded ++
              customAdditions c packages excluded)) := by
        simp [splitNl]
      rw [e1, splitNl_append,
        splitNl_eq_single (by decide : '\n' ∉ addedHeader),
        show joinTerm (requiredMissing c packages excluded ++
          customAdditions c packages excluded) =
          joinTerm (requiredMissing c packages excluded ++
            customAdditions c packages excluded) ++ [] from by simp,
        splitNl_joinTerm]
      rfl
  · have hne : baseLinesFiltered c excluded ≠ [] := by
      simpa [List.isEmpty_iff] using hblf
    rw [if_neg hblf, if_neg hblf, rstripL_joinNl _ hne]
    by_cases hadd : (requiredMissing c packages excluded).isEmpty &&
        (customAdditions c packages excluded).isEmpty
    · rw [if_pos hadd, if_pos hadd, List.append_nil, List.append_nil]
      rw [show joinNl (trimTrail (baseLinesFiltered c excluded)) ++ ['\n'] =
          joinNl (trimTrail (baseLinesFiltered c excluded)) ++ '\n' :: [] from rfl,
        splitNl_joinNl_cons (trimTrail_ne_nil hne) (noNl_trimTrail hclean)]
      rfl
    · rw [if_neg hadd, if_neg hadd]
      rw [show (joinNl (trimTrail (baseLinesFiltered c excluded)) ++ ['\n']) ++
          ('\n' :: (addedHeader ++ '\n' ::
            joinTerm (requiredMissing c packages excluded ++
              customAdditions c packages excluded))) =
          joinNl (trimTrail (baseLinesFiltered c excluded)) ++ '\n' ::
          ('\n' :: (addedHeader ++ '\n' ::
            joinTerm (requiredMissing c packages excluded ++
              customAdditions c packages excluded))) from by
        simp]
      rw [splitNl_joinNl_cons (trimTrail_ne_nil hne) (noNl_trimTrail hclean)]
      have e1 : splitNl ('\n' :: (addedHeader ++ '\n' ::
          joinTerm (requiredMissing c packages excluded ++
            customAdditions c packages excluded))) =
          [] :: splitNl (addedHeader ++ '\n' ::
            joinTerm (requiredMissing c packages excluded ++
              customAdditions c packages excluded)) := by
        simp [splitNl]
      rw [e1, splitNl_append,
        splitNl_eq_single (by decide : '\n' ∉ addedHeader),
        show joinTerm (requiredMissing c packages excluded ++
          customAdditions c packages excluded) =
          joinTerm (requiredMissing c packages excluded ++
            customAdditions c packages excluded) ++ [] from by simp,
        splitNl_joinTerm]
      simp [splitNl]

theorem splitLinesL_manifestContent (c : List Char)
    (packages excluded : List (List Char)) :
    splitLinesL (manifestContent c packages excluded) =
      manifestLines c packages excluded := by
  unfold splitLinesL
  rw [splitNl_manifestContent, dropLastEmpty_concat]

/-- Cleanliness of a candidate package name, as required for it to survive a
write/re-read round trip on its own manifest line: its strip is itself, it is
non-blank, it does not start with `#`, and it contains no newline. -/
def cleanName (p : List Char) : Prop := lineTok p = some p ∧ '\n' ∉ p

instance cleanNameDec (p : List Char) : Decidable (cleanName p) :=
  decidable_of_iff (lineTok p = some p ∧ '\n' ∉ p) Iff.rfl

theorem requiredClean : ∀ r ∈ requiredPackages, cleanName r := by decide

theorem tokens_of_clean {l : List (List Char)} (h : ∀ p ∈ l, cleanName p) :
    l.filterMap lineTok = l := by
  induction l with
  | nil => rfl
  | cons a as ih =>
    rw [List.filterMap_cons, (h a (List.mem_cons_self a as)).1,
      ih fun p hp => h p (List.mem_cons_of_mem a hp)]

theorem splitAll_eq_of_clean {l : List (List Char)} (h : ∀ p ∈ l, cleanName p) :
    splitAll l = l :=
  splitAll_clean fun p hp => (h p hp).2

theorem mem_splitAll {x : List Char} {ls : List (List Char)}
    (hx : x ∈ ls) (hnl : '\n' ∉ x) : x ∈ splitAll ls := by
  induction ls with
  | nil => simp at hx
  | cons a as ih =>
    rcases List.mem_cons.mp hx with rfl | hx'
    · unfold splitAll
      rw [splitNl_eq_single hnl]
      simp
    · unfold splitAll
      exact List.mem_append.mpr (Or.inr (ih hx'))

theorem requiredMissing_clean (c : List Char)
    (packages excluded : List (List Char)) :
    ∀ r ∈ requiredMissing c packages excluded, cleanName r := by
  intro r hr
  unfold requiredMissing at hr
  rw [mem_sortDedupL] at hr
  exact requiredClean r (List.mem_filter.mp hr).1

theorem tokens_manifestLines (c : List Char)
    (packages excluded : List (List Char)) :
    (manifestLines c packages excluded).filterMap lineTok =
      (baseLinesFiltered c excluded).filterMap lineTok ++
      requiredMissing c packages excluded ++
      (splitAll (customAdditions c packages excluded)).filterMap lineTok := by
  unfold manifestLines
  dsimp only
  rw [List.filterMap_append, List.append_assoc]
  congr 1
  · by_cases hblf : (baseLinesFiltered c excluded).isEmpty
    · have : baseLinesFiltered c excluded = [] := by
        simpa [List.isEmpty_iff] using hblf
      rw [if_pos hblf, this]
    · rw [if_neg hblf, tokens_trimTrail]
  · by_cases hadd : (requiredMissing c packages excluded).isEmpty &&
        (customAdditions c packages excluded).isEmpty
    · have hrm : requiredMissing c packages excluded = [] := by
        have := (Bool.and_eq_true _ _).mp hadd
        simpa [List.isEmpty_iff] using this.1
      have hcu : customAdditions c packages excluded = [] := by
        have := (Bool.and_eq_true _ _).mp hadd
        simpa [List.isEmpty_iff] using this.2
      rw [if_pos hadd, hrm, hcu]
      rfl
    · rw [if_neg hadd]
      have h0 : lineTok ([] : List Char) = none := rfl
      have h1 : lineTok addedHeader = none := by decide
      rw [List.filterMap_cons, h0, List.filterMap_cons, h1, splitAll_append,
        List.filterMap_append,
        splitAll_eq_of_clean (requiredMissing_clean c packages excluded),
        tokens_of_clean (requiredMissing_clean c packages excluded)]

theorem manifestPkgLines_eq (c : List Char)
    (packages excluded : List (List Char)) :
    manifestPkgLines c packages excluded =
      (baseLinesFiltered c excluded).filterMap lineTok ++
      requiredMissing c packages excluded ++
      (splitAll (customAdditions c packages excluded)).filterMap lineTok := by
  unfold manifestPkgLines
  rw [splitLinesL_manifestContent, tokens_manifestLines]

/-! ## Claim C1 chain: required packages always survive -/

theorem mem_effectiveExclusions {p : List Char} {excluded : List (List Char)} :
    p ∈ effectiveExclusions excluded ↔ p ∈ excluded ∧ p ∉ requiredPackages := by
  simp [effectiveExclusions, List.mem_filter]

theorem required_mem_blfTokens {c : List Char} {excluded : List (List Char)}
    {r : List Char} (hr : r ∈ requiredPackages) (hb : r ∈ baseTokens c) :
    r ∈ (baseLinesFiltered c excluded).filterMap lineTok := by
  obtain ⟨l0, hl0, htok⟩ := List.mem_filterMap.mp hb
  refine List.mem_filterMap.mpr ⟨l0, ?_, htok⟩
  refine List.mem_filter.mpr ⟨hl0, ?_⟩
  rw [htok]
  simp [mem_effectiveExclusions, hr]

theorem required_sub_pkgLines (c : List Char)
    (packages excluded : List (List Char)) :
    ∀ r ∈ requiredPackages, r ∈ manifestPkgLines c packages excluded := by
  intro r hr
  rw [manifestPkgLines_eq]
  by_cases hrm : r ∈ requiredMissing c packages excluded
  · exact List.mem_append.mpr (Or.inl (List.mem_append.mpr (Or.inr hrm)))
  · have hor : r ∈ customAdditions c packages excluded ∨ r ∈ baseTokens c := by
      by_contra hc
      push_neg at hc
      apply hrm
      unfold requiredMissing
      rw [mem_sortDedupL]
      exact List.mem_filter.mpr ⟨hr, by simp [hc.1, hc.2]⟩
    rcases hor with hcu | hbase
    · have hclean := requiredClean r hr
      exact List.mem_append.mpr (Or.inr (List.mem_filterMap.mpr
        ⟨r, mem_splitAll hcu hclean.2, hclean.1⟩))
    · exact List.mem_append.mpr (Or.inl (List.mem_append.mpr
        (Or.inl (required_mem_blfTokens hr hbase))))

theorem missingCritical_nil (c : List Char)
    (packages excluded : List (List Char)) :
    missingCritical (manifestPkgLines c packages excluded) = [] := by
  unfold missingCritical
  rw [List.filter_eq_nil_iff]
  intro r hr
  simp [required_sub_pkgLines c packages excluded r hr]

/-! ## Claim C3 chain: no duplicates for well-formed inputs -/

theorem customAdditions_props {c : List Char}
    {packages excluded : List (List Char)} :
    ∀ u ∈ customAdditions c packages excluded,
      u ∈ packages ∧ u ∉ baseTokens c ∧ u ∉ effectiveExclusions excluded := by
  intro u hu
  unfold customAdditions at hu
  rw [mem_sortDedupL] at hu
  have h2 := List.mem_filter.mp hu
  have h1 := List.mem_filter.mp h2.1
  refine ⟨h1.1, of_decide_eq_true h2.2, ?_⟩
  have := (Bool.and_eq_true _ _).mp h1.2
  exact of_decide_eq_true this.2

theorem requiredMissing_props {c : List Char}
    {packages excluded : List (List Char)} :
    ∀ r ∈ requiredMissing c packages excluded,
      r ∈ requiredPackages ∧ r ∉ customAdditions c packages excluded ∧
        r ∉ baseTokens c := by
  intro r hr
  unfold requiredMissing at hr
  rw [mem_sortDedupL] at hr
  have h := List.mem_filter.mp hr
  have h2 := (Bool.and_eq_true _ _).mp h.2
  exact ⟨h.1, of_decide_eq_true h2.1, of_decide_eq_true h2.2⟩

theorem blfTokens_sublist (c : List Char) (excluded : List (List Char)) :
    ((baseLinesFiltered c excluded).filterMap lineTok).Sublist (baseTokens c) :=
  List.Sublist.filterMap lineTok (List.filter_sublist _)

theorem blfTokens_subset {c : List Char} {excluded : List (List Char)}
    {x : List Char} (h : x ∈ (baseLinesFiltered c excluded).filterMap lineTok) :
    x ∈ baseTokens c :=
  (blfTokens_sublist c excluded).subset h

theorem pkgLines_nodup {c : List Char} {packages excluded : List (List Char)}
    (hbase : (baseTokens c).Nodup) (hclean : ∀ p ∈ packages, cleanName p) :
    (manifestPkgLines c packages excluded).Nodup := by
  rw [manifestPkgLines_eq]
  have hcuclean : ∀ u ∈ customAdditions c packages excluded, cleanName u :=
    fun u hu => hclean u (customAdditions_props u hu).1
  rw [splitAll_eq_of_clean hcuclean, tokens_of_clean hcuclean]
  refine List.Nodup.append (List.Nodup.append ?_ ?_ ?_) ?_ ?_
  · exact (blfTokens_sublist c excluded).nodup hbase
  · exact nodup_sortDedupL _
  · refine List.disjoint_left.mpr fun x hx hx' => ?_
    exact (requiredMissing_props x hx').2.2 (blfTokens_subset hx)
  · exact nodup_sortDedupL _
  · refine List.disjoint_left.mpr fun x hx hx' => ?_
    rcases List.mem_append.mp hx with hA | hrm
    · exact (customAdditions_props x hx').2.1 (blfTokens_subset hA)
    · exact (requiredMissing_props x hrm).2.1 hx'

/-! ## Claim C5 chain: idempotence for clean candidate names -/

theorem cleanName_parts {p : List Char} (h : cleanName p) :
    stripL p = p ∧ p ≠ [] := by
  obtain ⟨htok, -⟩ := h
  unfold lineTok at htok
  dsimp only at htok
  by_cases h1 : (stripL p).isEmpty
  · rw [if_pos h1] at htok
    exact absurd htok (by simp)
  · rw [if_neg h1] at htok
    by_cases h2 : hashStart (stripL p)
    · rw [if_pos h2] at htok
      exact absurd htok (by simp)
    · rw [if_neg h2] at htok
      have heq : stripL p = p := Option.some.inj htok
      refine ⟨heq, fun hp => ?_⟩
      rw [hp] at h1
      exact h1 (by rw [show stripL [] = [] from rfl]; rfl)

theorem baseTokens_manifestContent (c : List Char)
    (packages excluded : List (List Char)) :
    baseTokens (manifestContent c packages excluded) =
      manifestPkgLines c packages excluded := rfl

theorem manifestContent_expand (c : List Char)
    (packages excluded : List (List Char)) :
    manifestContent c packages excluded =
      (if (baseLinesFiltered c excluded).isEmpty then []
       else rstripL (joinNl (baseLinesFiltered c excluded)) ++ ['\n']) ++
      (if (requiredMissing c packages excluded).isEmpty &&
          (customAdditions c packages excluded).isEmpty then []
       else '\n' :: (addedHeader ++ '\n' ::
         joinTerm (requiredMissing c packages excluded ++
           customAdditions c packages excluded))) := rfl

theorem blfTokens_not_excluded {c : List Char} {excluded : List (List Char)}
    {t : List Char}
    (h : t ∈ (baseLinesFiltered c excluded).filterMap lineTok) :
    t ∉ effectiveExclusions excluded := by
  obtain ⟨l', hl', htok'⟩ := List.mem_filterMap.mp h
  have hp := (List.mem_filter.mp hl').2
  rw [htok'] at hp
  exact of_decide_eq_true hp

theorem mem_blfTokens {c : List Char} {excluded : List (List Char)}
    {r : List Char} (hne : r ∉ effectiveExclusions excluded)
    (hb : r ∈ baseTokens c) :
    r ∈ (baseLinesFiltered c excluded).filterMap lineTok := by
  obtain ⟨l0, hl0, htok⟩ := List.mem_filterMap.mp hb
  refine List.mem_filterMap.mpr ⟨l0, ?_, htok⟩
  refine List.mem_filter.mpr ⟨hl0, ?_⟩
  rw [htok]
  simp [hne]

theorem manifestLines_tok_not_excluded {c : List Char}
    {packages excluded : List (List Char)}
    (hclean : ∀ p ∈ packages, cleanName p) :
    ∀ l ∈ manifestLines c packages excluded, ∀ t, lineTok l = some t →
      t ∉ effectiveExclusions excluded := by
  have hcuclean : ∀ u ∈ customAdditions c packages excluded, cleanName u :=
    fun u hu => hclean u (customAdditions_props u hu).1
  intro l hl t htok
  unfold manifestLines at hl
  dsimp only at hl
  rcases List.mem_append.mp hl with hA | hB
  · by_cases hblf : (baseLinesFiltered c excluded).isEmpty
    · rw [if_pos hblf] at hA
      simp at hA
    · rw [if_neg hblf] at hA
      have ht : t ∈ (trimTrail (baseLinesFiltered c excluded)).filterMap lineTok :=
        List.mem_filterMap.mpr ⟨l, hA, htok⟩
      rw [tokens_trimTrail] at ht
      exact blfTokens_not_excluded ht
  · by_cases hadd : (requiredMissing c packages excluded).isEmpty &&
        (customAdditions c packages excluded).isEmpty
    · rw [if_pos hadd] at hB
      simp at hB
    · rw [if_neg hadd] at hB
      rcases List.mem_cons.mp hB with hB0 | hB'
      · rw [hB0] at htok
        exact absurd htok (by simp [show lineTok ([] : List Char) = none from rfl])
      rcases List.mem_cons.mp hB' with hB1 | hB''
      · rw [hB1] at htok
        exact absurd htok (by simp [show lineTok addedHeader = none from by decide])
      rw [splitAll_eq_of_clean (fun p hp => by
        rcases List.mem_append.mp hp with h1 | h1
        · exact requiredMissing_clean c packages excluded p h1
        · exact hcuclean p h1)] at hB''
      rcases List.mem_append.mp hB'' with hrm | hcu
      · have hcl := requiredMissing_clean c packages excluded l hrm
        have ht : t = l := by
          rw [hcl.1] at htok
          exact (Option.some.inj htok).symm
        rw [ht]
        have hr := (requiredMissing_props l hrm).1
        rw [mem_effectiveExclusions]
        rintro ⟨-, hnr⟩
        exact hnr hr
      · have hcl := hcuclean l hcu
        have ht : t = l := by
          rw [hcl.1] at htok
          exact (Option.some.inj htok).symm
        rw [ht]
        exact (customAdditions_props l hcu).2.2

theorem blf_manifestContent {c : List Char}
    {packages excluded : List (List Char)}
    (hclean : ∀ p ∈ packages, cleanName p) :
    baseLinesFiltered (manifestContent c packages excluded) excluded =
      manifestLines c packages excluded := by
  unfold baseLinesFiltered
  rw [splitLinesL_manifestContent]
  rw [List.filter_eq_self]
  intro l hl
  cases htok : lineTok l with
  | none => simp
  | some t =>
    simp only []
    rw [decide_eq_true_iff]
    exact manifestLines_tok_not_excluded hclean l hl t htok

theorem custom_manifestContent {c : List Char}
    {packages excluded : List (List Char)}
    (hclean : ∀ p ∈ packages, cleanName p) :
    customAdditions (manifestContent c packages excluded) packages excluded
      = [] := by
  have hcuclean : ∀ u ∈ customAdditions c packages excluded, cleanName u :=
    fun u hu => hclean u (customAdditions_props u hu).1
  unfold customAdditions
  have hnil : ((packages.filter (fun p =>
      !(stripL p).isEmpty &&
        decide (p ∉ effectiveExclusions excluded))).filter
      (fun p => decide (p ∉ baseTokens (manifestContent c packages excluded))))
      = [] := by
    rw [List.filter_eq_nil_iff]
    intro p hp
    have h1 := List.mem_filter.mp hp
    have hpex : p ∉ effectiveExclusions excluded :=
      of_decide_eq_true ((Bool.and_eq_true _ _).mp h1.2).2
    have hmem : p ∈ baseTokens (manifestContent c packages excluded) := by
      rw [baseTokens_manifestContent, manifestPkgLines_eq]
      by_cases hb : p ∈ baseTokens c
      · exact List.mem_append.mpr (Or.inl (List.mem_append.mpr
          (Or.inl (mem_blfTokens hpex hb))))
      · have hp2 : p ∈ (packages.filter (fun q =>
            !(stripL q).isEmpty &&
              decide (q ∉ effectiveExclusions excluded))).filter
            (fun q => decide (q ∉ baseTokens c)) :=
          List.mem_filter.mpr ⟨hp, by simp [hb]⟩
        have hpcu : p ∈ customAdditions c packages excluded := by
          unfold customAdditions
          rw [mem_sortDedupL]
          exact hp2
        have hclp := hcuclean p hpcu
        rw [splitAll_eq_of_clean hcuclean, tokens_of_clean hcuclean]
        exact List.mem_append.mpr (Or.inr hpcu)
    simp [hmem]
  rw [hnil]
  rfl

theorem rm_manifestContent (c : List Char)
    (packages excluded : List (List Char)) :
    requiredMissing (manifestContent c packages excluded) packages excluded
      = [] := by
  unfold requiredMissing
  have hnil : (requiredPackages.filter (fun r =>
      decide (r ∉ customAdditions (manifestContent c packages excluded)
        packages excluded) &&
      decide (r ∉ baseTokens (manifestContent c packages excluded)))) = [] := by
    rw [List.filter_eq_nil_iff]
    intro r hr
    have : r ∈ baseTokens (manifestContent c packages excluded) := by
      rw [baseTokens_manifestContent]
      exact required_sub_pkgLines c packages excluded r hr
    simp [this]
  rw [hnil]
  rfl

theorem parts_not_all_empty (c : List Char)
    (packages excluded : List (List Char)) :
    ¬(baseLinesFiltered c excluded = [] ∧
      requiredMissing c packages excluded = [] ∧
      customAdditions c packages excluded = []) := by
  rintro ⟨hb, hr, hc⟩
  have hmk : "mkinitcpio".data ∈ requiredPackages := by
    unfold requiredPackages
    exact List.mem_cons_self _ _
  have hnrm : "mkinitcpio".data ∉ requiredMissing c packages excluded := by
    rw [hr]
    simp
  have hor : "mkinitcpio".data ∈ customAdditions c packages excluded ∨
      "mkinitcpio".data ∈ baseTokens c := by
    by_contra hcon
    push_neg at hcon
    apply hnrm
    unfold requiredMissing
    rw [mem_sortDedupL]
    exact List.mem_filter.mpr ⟨hmk, by simp [hcon.1, hcon.2]⟩
  rcases hor with hcu | hbase
  · rw [hc] at hcu
    simp at hcu
  · have hne : "mkinitcpio".data ∉ effectiveExclusions excluded := by
      rw [mem_effectiveExclusions]
      rintro ⟨-, hnr⟩
      exact hnr hmk
    have := @mem_blfTokens c excluded _ hne hbase
    rw [hb] at this
    simp at this

theorem manifestLines_ne_nil (c : List Char)
    (packages excluded : List (List Char)) :
    manifestLines c packages excluded ≠ [] := by
  unfold manifestLines
  dsimp only
  by_cases hadd : (requiredMissing c packages excluded).isEmpty &&
      (customAdditions c packages excluded).isEmpty
  · rw [if_pos hadd, List.append_nil]
    have hrm : requiredMissing c packages excluded = [] := by
      simpa [List.isEmpty_iff] using ((Bool.and_eq_true _ _).mp hadd).1
    have hcu : customAdditions c packages excluded = [] := by
      simpa [List.isEmpty_iff] using ((Bool.and_eq_true _ _).mp hadd).2
    by_cases hblf : (baseLinesFiltered c excluded).isEmpty
    · exact absurd ⟨by simpa [List.isEmpty_iff] using hblf, hrm, hcu⟩
        (parts_not_all_empty c packages excluded)
    · rw [if_neg hblf]
      exact trimTrail_ne_nil (by simpa [List.isEmpty_iff] using hblf)
  · rw [if_neg hadd]
    simp

theorem manifestContent_eq_joinNl (c : List Char)
    (packages excluded : List (List Char)) :
    manifestContent c packages excluded =
      joinNl (manifestLines c packages excluded) ++ ['\n'] := by
  conv_lhs => rw [← joinNl_splitNl (manifestContent c packages excluded)]
  rw [splitNl_manifestContent,
    joinNl_concat (manifestLines_ne_nil c packages excluded)]

theorem rstripL_joinNl_concat {X : List (List Char)} {y : List Char}
    (hX : X ≠ []) (hy : rstripL y = y) (hy' : y ≠ []) :
    rstripL (joinNl (X ++ [y])) = joinNl (X ++ [y]) := by
  rw [joinNl_concat hX, rstripL_append]
  have hnl : rstripL ('\n' :: y) = '\n' :: y := by
    rw [show '\n' :: y = ['\n'] ++ y from rfl, rstripL_append,
      if_neg (by rw [hy]; exact hy')]
    rw [hy]
  rw [if_neg (by rw [hnl]; simp), hnl]

theorem rstripL_manifestLines {c : List Char}
    {packages excluded : List (List Char)}
    (hclean : ∀ p ∈ packages, cleanName p) :
    rstripL (joinNl (manifestLines c packages excluded)) =
      joinNl (manifestLines c packages excluded) := by
  have hcuclean : ∀ u ∈ customAdditions c packages excluded, cleanName u :=
    fun u hu => hclean u (customAdditions_props u hu).1
  have haddclean : ∀ p ∈ requiredMissing c packages excluded ++
      customAdditions c packages excluded, cleanName p := by
    intro p hp
    rcases List.mem_append.mp hp with h1 | h1
    · exact requiredMissing_clean c packages excluded p h1
    · exact hcuclean p h1
  unfold manifestLines
  dsimp only
  by_cases hadd : (requiredMissing c packages excluded).isEmpty &&
      (customAdditions c packages excluded).isEmpty
  · rw [if_pos hadd, List.append_nil]
    by_cases hblf : (baseLinesFiltered c excluded).isEmpty
    · rw [if_pos hblf]
      rfl
    · rw [if_neg hblf]
      have hne : baseLinesFiltered c excluded ≠ [] := by
        simpa [List.isEmpty_iff] using hblf
      rw [← rstripL_joinNl _ hne, rstripL_idem]
  · rw [if_neg hadd]
    have haddne : requiredMissing c packages excluded ++
        customAdditions c packages excluded ≠ [] := by
      intro hcon
      rw [List.append_eq_nil] at hcon
      rw [hcon.1, hcon.2] at hadd
      simp at hadd
    rw [splitAll_eq_of_clean haddclean]
    rcases List.eq_nil_or_concat (requiredMissing c packages excluded ++
        customAdditions c packages excluded) with hnil | ⟨init, y, heq⟩
    · exact absurd hnil haddne
    · have hy : cleanName y := haddclean y (by rw [heq, List.concat_eq_append]; simp)
      have hyparts := cleanName_parts hy
      rw [heq, List.concat_eq_append]
      have hre : (if (baseLinesFiltered c excluded).isEmpty then []
            else trimTrail (baseLinesFiltered c excluded)) ++
          ([] :: addedHeader :: (init ++ [y])) =
          ((if (baseLinesFiltered c excluded).isEmpty then []
            else trimTrail (baseLinesFiltered c excluded)) ++
          ([] :: addedHeader :: init)) ++ [y] := by
        simp
      rw [hre]
      exact rstripL_joinNl_concat (by simp) (rstripL_eq_self hyparts.1) hyparts.2

theorem manifest_idempotent {c : List Char}
    {packages excluded : List (List Char)}
    (hclean : ∀ p ∈ packages, cleanName p) :
    manifestContent (manifestContent c packages excluded) packages excluded =
      manifestContent c packages excluded := by
  rw [manifestContent_expand (manifestContent c packages excluded)]
  rw [blf_manifestContent hclean, rm_manifestContent, custom_manifestContent hclean]
  rw [if_neg (by simpa [List.isEmpty_iff] using manifestLines_ne_nil c packages excluded)]
  rw [show (List.isEmpty ([] : List (List Char)) &&
      List.isEmpty ([] : List (List Char))) = true from rfl,
    if_pos rfl, List.append_nil]
  rw [rstripL_manifestLines hclean, ← manifestContent_eq_joinNl]

/-! ## Lemmas about the Build Driver loop -/

theorem driveLines_foldl (st : DriveState) (ls : List String) :
    ls.foldl stepLine st =
      ⟨st.errorDetected || ls.any isFatalLine,
        st.events ++ ls.filterMap lineMilestone⟩ := by
  induction ls generalizing st with
  | nil => simp
  | cons a as ih =>
    rw [List.foldl_cons, ih]
    unfold stepLine
    cases h : lineMilestone a with
    | none => simp [h, Bool.or_assoc]
    | some p => simp [h, Bool.or_assoc]

theorem driveLines_events (ls : List String) :
    (driveLines ls).events = ls.filterMap lineMilestone := by
  unfold driveLines
  rw [driveLines_foldl]
  simp

theorem driveLines_error (ls : List String) :
    (driveLines ls).errorDetected = ls.any isFatalLine := by
  unfold driveLines
  rw [driveLines_foldl]
  simp

/-! ## Lemmas about the staging loop -/

/-- The one-package body of the staging loop. -/
def stageStep (env : StageEnv) (acc : List String × List String × List String)
    (p : String) : List String × List String × List String :=
  if env.qlOk p then
    match latestFile (env.cacheFiles p) with
    | some f => (acc.1 ++ [p], acc.2.1, acc.2.2 ++ [f.1])
    | none => (acc.1, acc.2.1 ++ [p], acc.2.2)
  else acc

theorem stageResult_eq_foldl (env : StageEnv) (aurPkgs : List String) :
    stageResult env aurPkgs = aurPkgs.foldl (stageStep env) ([], [], []) := rfl

/-- Closed form of the copied-package list. -/
def stagedCopied (env : StageEnv) (l : List String) : List String :=
  l.filter (fun p => env.qlOk p && (latestFile (env.cacheFiles p)).isSome)

/-- Closed form of the failed-to-stage list. -/
def stagedFailed (env : StageEnv) (l : List String) : List String :=
  l.filter (fun p => env.qlOk p && !(latestFile (env.cacheFiles p)).isSome)

/-- Closed form of the copied artifact file names. -/
def stagedFiles (env : StageEnv) (l : List String) : List String :=
  l.filterMap (fun p =>
    if env.qlOk p then (latestFile (env.cacheFiles p)).map Prod.fst else none)

theorem stage_foldl (env : StageEnv) (l : List String)
    (acc : List String × List String × List String) :
    l.foldl (stageStep env) acc =
      (acc.1 ++ stagedCopied env l, acc.2.1 ++ stagedFailed env l,
        acc.2.2 ++ stagedFiles env l) := by
  induction l generalizing acc with
  | nil => simp [stagedCopied, stagedFailed, stagedFiles]
  | cons p t ih =>
    rw [List.foldl_cons, ih]
    unfold stageStep stagedCopied stagedFailed stagedFiles
    by_cases hql : env.qlOk p
    · cases hlf : latestFile (env.cacheFiles p) with
      | some f => simp [hql, hlf]
      | none => simp [hql, hlf]
    · simp [hql]

theorem stageResult_eq (env : StageEnv) (l : List String) :
    stageResult env l =
      (stagedCopied env l, stagedFailed env l, stagedFiles env l) := by
  rw [stageResult_eq_foldl, stage_foldl]
  rfl

theorem latestFile_aux_ne_none (fs : List (String × Nat)) (g : String × Nat) :
    fs.foldl (fun acc f =>
      match acc with
      | none => some f
      | some g => if g.2 ≤ f.2 then some f else some g) (some g) ≠ none := by
  induction fs generalizing g with
  | nil => simp
  | cons f t ih =>
    rw [List.foldl_cons]
    by_cases h : g.2 ≤ f.2
    · simpa [h] using ih f
    · simpa [h] using ih g

theorem latestFile_eq_none_iff (fs : List (String × Nat)) :
    latestFile fs = none ↔ fs = [] := by
  cases fs with
  | nil => simp [latestFile]
  | cons f t =>
    simp only [latestFile, List.foldl_cons]
    constructor
    · intro h
      exact absurd h (latestFile_aux_ne_none t f)
    · intro h
      simp at h

theorem latestFile_aux_mem (fs : List (String × Nat)) (acc : Option (String × Nat))
    (g : String × Nat)
    (h : fs.foldl (fun acc f =>
      match acc with
      | none => some f
      | some g => if g.2 ≤ f.2 then some f else some g) acc = some g) :
    acc = some g ∨ g ∈ fs := by
  induction fs generalizing acc with
  | nil => exact Or.inl h
  | cons f t ih =>
    rw [List.foldl_cons] at h
    cases acc with
    | none =>
      rcases ih (some f) h with h1 | h1
      · exact Or.inr (List.mem_cons.mpr (Or.inl (Option.some.inj h1).symm))
      · exact Or.inr (List.mem_cons_of_mem f h1)
    | some a =>
      by_cases hle : a.2 ≤ f.2
      · simp only [hle, if_true] at h
        rcases ih (some f) h with h1 | h1
        · exact Or.inr (List.mem_cons.mpr (Or.inl (Option.some.inj h1).symm))
        · exact Or.inr (List.mem_cons_of_mem f h1)
      · simp only [hle, if_false] at h
        rcases ih (some a) h with h1 | h1
        · exact Or.inl h1
        · exact Or.inr (List.mem_cons_of_mem f h1)

theorem latestFile_mem {fs : List (String × Nat)} {g : String × Nat}
    (h : latestFile fs = some g) : g ∈ fs := by
  rcases latestFile_aux_mem fs none g h with h1 | h1
  · exact absurd h1 (by simp)
  · exact h1

theorem mem_classifyAur {env : StageEnv} {allPkgs : List String} {p : String} :
    p ∈ classifyAur env allPkgs ↔
      p ∈ allPkgs ∧ (stripL p.data).isEmpty = false ∧ env.siOk p = false := by
  unfold classifyAur
  simp only [List.mem_filter, Bool.not_eq_true', Bool.not_eq_eq_eq_not]
  constructor
  · rintro ⟨⟨h1, h2⟩, h3⟩
    exact ⟨h1, by simpa using h2, h3⟩
  · rintro ⟨h1, h2, h3⟩
    exact ⟨⟨h1, by simpa using h2⟩, h3⟩

theorem mem_classifyRepo {env : StageEnv} {allPkgs : List String} {p : String} :
    p ∈ classifyRepo env allPkgs ↔
      p ∈ allPkgs ∧ (stripL p.data).isEmpty = false ∧ env.siOk p = true := by
  unfold classifyRepo
  simp only [List.mem_filter]
  constructor
  · rintro ⟨⟨h1, h2⟩, h3⟩
    exact ⟨h1, by simpa using h2, h3⟩
  · rintro ⟨h1, h2, h3⟩
    exact ⟨⟨h1, by simpa using h2⟩, h3⟩

theorem mem_finalSelection {env : StageEnv} {allPkgs excluded : List String}
    {q : String} :
    q ∈ finalSelection env allPkgs excluded ↔
      q ∈ allPkgs ∧ (stripL q.data).isEmpty = false ∧ q ∉ excluded ∧
        (env.siOk q = true ∨
          (env.qlOk q = true ∧ env.cacheFiles q ≠ [])) := by
  unfold finalSelection
  rw [List.mem_append, List.mem_filter, List.mem_filter, stageResult_eq]
  simp only [stagedCopied, List.mem_filter, mem_classifyAur, mem_classifyRepo,
    decide_eq_true_iff]
  constructor
  · rintro (⟨⟨h1, h2, h3⟩, h4⟩ | ⟨⟨⟨h1, h2, h3⟩, h5⟩, h4⟩)
    · exact ⟨h1, h2, h4, Or.inl h3⟩
    · have h6 := (Bool.and_eq_true _ _).mp h5
      refine ⟨h1, h2, h4, Or.inr ⟨h6.1, ?_⟩⟩
      intro hc
      have : latestFile (env.cacheFiles q) = none :=
        (latestFile_eq_none_iff _).mpr hc
      rw [this] at h6
      simpa using h6.2
  · rintro ⟨h1, h2, h4, h5 | ⟨h5, h6⟩⟩
    · exact Or.inl ⟨⟨h1, h2, h5⟩, h4⟩
    · by_cases hsi : env.siOk q
      · exact Or.inl ⟨⟨h1, h2, hsi⟩, h4⟩
      · refine Or.inr ⟨⟨⟨h1, h2, by simpa using hsi⟩, ?_⟩, h4⟩
        rw [Bool.and_eq_true, h5]
        refine ⟨rfl, ?_⟩
        rw [Option.isSome_iff_ne_none]
        intro hc
        exact h6 ((latestFile_eq_none_iff _).mp hc)

theorem stagedFiles_match {env : StageEnv} {l : List String}
    (hmatch : ∀ p f, f ∈ env.cacheFiles p → matchesPkgTar f.1 = true) :
    ∀ x ∈ stagedFiles env l, matchesPkgTar x = true := by
  intro x hx
  unfold stagedFiles at hx
  obtain ⟨p, -, hform⟩ := List.mem_filterMap.mp hx
  by_cases hql : env.qlOk p
  · rw [if_pos hql] at hform
    cases hlf : latestFile (env.cacheFiles p) with
    | none => rw [hlf] at hform; simp at hform
    | some g =>
      rw [hlf] at hform
      have : g.1 = x := by simpa using hform
      rw [← this]
      exact hmatch p g (latestFile_mem hlf)
  · rw [if_neg hql] at hform
    simp at hform

/-! ## Claim theorems -/

/-- C1: for every base profile content, candidate package list and exclusion
set, the Manifest Builder applies only `effective_exclusions = E − RequiredSet`
(first conjunct: membership in the effective exclusion set), the manifest as
re-read from the written file contains every member of RequiredSet (second
conjunct), and the post-build required-package check finds nothing missing, so
the `RequiredPackageMissingAfterBuild` error never raises (third conjunct). -/
theorem c1_required_packages_preserved (c : List Char)
    (packages excluded : List (List Char)) :
    (∀ p, p ∈ effectiveExclusions excluded ↔
        p ∈ excluded ∧ p ∉ requiredPackages) ∧
    (∀ r ∈ requiredPackages, r ∈ manifestPkgLines c packages excluded) ∧
    missingCritical (manifestPkgLines c packages excluded) = [] :=
  ⟨fun _ => mem_effectiveExclusions,
   required_sub_pkgLines c packages excluded,
   missingCritical_nil c packages excluded⟩

/-- Witness for C1 at a concrete input: the base profile is `vim` alone and
the operator even tries to exclude `linux`, yet `linux` is in the manifest and
the critical check passes. -/
theorem c1_witness :
    "linux".data ∈ manifestPkgLines "vim\n".data [] ["linux".data] ∧
    missingCritical (manifestPkgLines "vim\n".data [] ["linux".data]) = [] :=
  ⟨(c1_required_packages_preserved "vim\n".data [] ["linux".data]).2.1
      "linux".data (by decide),
   (c1_required_packages_preserved "vim\n".data [] ["linux".data]).2.2⟩

/-- C2 counterexample: the Build Driver's progress can regress.  A stream in
which a squashfs-creation line precedes a package-installation line makes the
loop emit 80 and then 50, so the emitted sequence is not monotonically
non-decreasing, refuting the claim for arbitrary orderings of the recognized
substrings. -/
theorem c2_counterexample :
    (driveLines ["Creating squashfs filesystem", "Installing packages"]).events
      = [80, 50] ∧
    ¬ List.Sorted (· ≤ ·)
      ((driveLines
        ["Creating squashfs filesystem", "Installing packages"]).events) :=
  ⟨by decide, by decide⟩

/-- C2 amended: the Build Driver emits exactly the milestone value of each
recognized line, in stream order; the emitted progress sequence is
non-decreasing precisely when the recognized milestone substrings occur in
non-decreasing milestone order (as they do in a canonical mkarchiso run), but
an adversarial ordering makes it regress. -/
theorem c2_progress_monotone_iff_ordered (ls : List String) :
    (driveLines ls).events = ls.filterMap lineMilestone ∧
    (List.Sorted (· ≤ ·) (ls.filterMap lineMilestone) →
      List.Sorted (· ≤ ·) ((driveLines ls).events)) :=
  ⟨driveLines_events ls,
   fun h => by rw [driveLines_events]; exact h⟩

/-- Witness for C2 amended: the canonical ordering (packages installing, then
squashfs creating) yields a monotone emission. -/
theorem c2_witness :
    List.Sorted (· ≤ ·)
      ((driveLines
        ["Installing packages", "Creating squashfs filesystem"]).events) :=
  (c2_progress_monotone_iff_ordered
    ["Installing packages", "Creating squashfs filesystem"]).2 (by decide)

/-- C3 counterexample: a base profile that itself lists a package twice keeps
both copies (the source filters base lines but never deduplicates them), so
the written manifest contains a duplicate. -/
theorem c3_counterexample :
    ¬ (manifestPkgLines "vim\nvim\n".data [] []).Nodup := by decide

/-- C3 amended: the written manifest contains no duplicate package names
provided the base profile's package tokens are pairwise distinct and every
candidate package name is a clean token (equal to its own strip, non-blank,
not a comment, newline-free) — the conditions under which the source's
set-based deduplication of the additions covers every line it writes. -/
theorem c3_no_duplicates_for_wellformed (c : List Char)
    (packages excluded : List (List Char))
    (hbase : (baseTokens c).Nodup)
    (hclean : ∀ p ∈ packages, cleanName p) :
    (manifestPkgLines c packages excluded).Nodup :=
  pkgLines_nodup hbase hclean

/-- Witness for C3 amended at a concrete input. -/
theorem c3_witness :
    (baseTokens "linux\nvim\n".data).Nodup ∧
    (manifestPkgLines "linux\nvim\n".data ["git".data] ["vim".data]).Nodup :=
  ⟨by decide,
   c3_no_duplicates_for_wellformed "linux\nvim\n".data ["git".data]
     ["vim".data] (by decide) (by decide)⟩

/-- C4 counterexample: when the installed-files query (`pacman -Ql`) fails for
a non-repository package whose artifact cannot be located, the package is
excluded from the final selection but is NOT marked failed-to-stage (the
source records `failed_aur_packages` only inside the successful-query branch),
refuting the claimed marking. -/
theorem c4_counterexample :
    "foo" ∈ classifyAur ⟨fun _ => false, fun _ => false, fun _ => []⟩ ["foo"] ∧
    (⟨fun _ => false, fun _ => false, fun _ => []⟩ : StageEnv).cacheFiles "foo"
      = [] ∧
    "foo" ∉ (stageResult ⟨fun _ => false, fun _ => false, fun _ => []⟩
      (classifyAur ⟨fun _ => false, fun _ => false, fun _ => []⟩ ["foo"])).2.1 ∧
    "foo" ∉ finalSelection ⟨fun _ => false, fun _ => false, fun _ => []⟩
      ["foo"] [] := by
  refine ⟨by decide, rfl, by decide, by decide⟩

/-- C4 amended: a non-repository package whose cached artifact cannot be
located is marked failed-to-stage when its installed-files query succeeds (and
only then), and in every case it never appears in the final selection passed
to the Manifest Builder; moreover membership of any package in the final
selection depends only on that package's own query results and cache state, so
a staging or lookup failure for one package never removes another. -/
theorem c4_staging_failure_isolated (env env' : StageEnv)
    (allPkgs excluded : List String) (p q : String) :
    (p ∈ classifyAur env allPkgs → env.cacheFiles p = [] →
      (env.qlOk p = true →
        p ∈ (stageResult env (classifyAur env allPkgs)).2.1) ∧
      p ∉ finalSelection env allPkgs excluded) ∧
    (env.siOk q = env'.siOk q → env.qlOk q = env'.qlOk q →
      env.cacheFiles q = env'.cacheFiles q →
      (q ∈ finalSelection env allPkgs excluded ↔
        q ∈ finalSelection env' allPkgs excluded)) := by
  constructor
  · intro hp hcache
    constructor
    · intro hql
      rw [stageResult_eq]
      refine List.mem_filter.mpr ⟨hp, ?_⟩
      rw [hql, (latestFile_eq_none_iff _).mpr hcache]
      rfl
    · intro hmem
      rw [mem_finalSelection] at hmem
      rcases hmem with ⟨-, -, -, h4 | ⟨-, h6⟩⟩
      · have hsi := (mem_classifyAur.mp hp).2.2
        rw [hsi] at h4
        exact absurd h4 (by simp)
      · exact h6 hcache
  · intro h1 h2 h3
    rw [mem_finalSelection, mem_finalSelection, h1, h2, h3]

/-- Witness for C4 amended: a package whose query succeeds but whose cache is
empty is marked failed and excluded. -/
theorem c4_witness :
    "aurpkg" ∈ (stageResult ⟨fun _ => false, fun _ => true, fun _ => []⟩
      (classifyAur ⟨fun _ => false, fun _ => true, fun _ => []⟩
        ["aurpkg"])).2.1 ∧
    "aurpkg" ∉ finalSelection ⟨fun _ => false, fun _ => true, fun _ => []⟩
      ["aurpkg"] [] :=
  ⟨((c4_staging_failure_isolated
      ⟨fun _ => false, fun _ => true, fun _ => []⟩
      ⟨fun _ => false, fun _ => true, fun _ => []⟩
      ["aurpkg"] [] "aurpkg" "x").1 (by decide) rfl).1 rfl,
   ((c4_staging_failure_isolated
      ⟨fun _ => false, fun _ => true, fun _ => []⟩
      ⟨fun _ => false, fun _ => true, fun _ => []⟩
      ["aurpkg"] [] "aurpkg" "x").1 (by decide) rfl).2⟩

/-- C5 counterexample: the Manifest Builder is not idempotent for arbitrary
candidate names.  A candidate beginning with `#` is written as a (comment)
line, vanishes from the re-read base package set, and is therefore appended
again by the second run, so the second output differs from the first. -/
theorem c5_counterexample :
    manifestContent (manifestContent "linux\n".data ["#note".data] [])
        ["#note".data] [] ≠
      manifestContent "linux\n".data ["#note".data] [] := by decide

/-- C5 amended: running `_build_package_list` twice with identical candidate
packages, exclusions and base profile produces byte-identical file contents,
provided every candidate package name is a clean token (equal to its own
strip, non-blank, not starting with `#`, newline-free). -/
theorem c5_idempotent_for_clean_names (c : List Char)
    (packages excluded : List (List Char))
    (hclean : ∀ p ∈ packages, cleanName p) :
    manifestContent (manifestContent c packages excluded) packages excluded =
      manifestContent c packages excluded :=
  manifest_idempotent hclean

/-- Witness for C5 amended at a concrete input. -/
theorem c5_witness :
    manifestContent
        (manifestContent "linux\nvim\n".data ["git".data] ["vim".data])
        ["git".data] ["vim".data] =
      manifestContent "linux\nvim\n".data ["git".data] ["vim".data] :=
  c5_idempotent_for_clean_names "linux\nvim\n".data ["git".data] ["vim".data]
    (by decide)

/-- C6: a build-output line is recorded as a fatal signal iff it contains one
of the error keywords (matched case-insensitively on the lowered line), does
not contain `warning`, and matches no entry of the non-fatal allowlist; and
recording a fatal signal never stops the loop: the state over a concatenated
stream combines the states of both halves, every line being processed (the
subprocess is waited for only after the stream is exhausted). -/
theorem c6_fatal_line_classification (xs ys : List String) (line : String) :
    (isFatalLine line = true ↔
      ((errorKeywords.any (fun k => subL k.data (lowerL line.data))) = true ∧
       subL "warning".data (lowerL line.data) = false ∧
       (nonFatalPatterns.any (fun p => subL p.data (lowerL line.data)))
         = false)) ∧
    (driveLines (xs ++ ys)).errorDetected =
      ((driveLines xs).errorDetected || (driveLines ys).errorDetected) ∧
    (driveLines (xs ++ ys)).events =
      (driveLines xs).events ++ (driveLines ys).events := by
  refine ⟨?_, ?_, ?_⟩
  · unfold isFatalLine
    dsimp only
    constructor
    · intro h
      have h3 := (Bool.and_eq_true _ _).mp h
      have h12 := (Bool.and_eq_true _ _).mp h3.1
      exact ⟨h12.2, by simpa using h3.2, by simpa using h12.1⟩
    · rintro ⟨h1, h2, h3⟩
      rw [h1, h2, h3]
      rfl
  · rw [driveLines_error, driveLines_error, driveLines_error, List.any_append]
  · rw [driveLines_events, driveLines_events, driveLines_events,
      List.filterMap_append]

/-- Witness for C6: a keyword line is classified fatal via the theorem's
characterization. -/
theorem c6_witness : isFatalLine "error: boom" = true :=
  (c6_fatal_line_classification [] [] "error: boom").1.mpr (by decide)

/-- C7: when the builder subprocess exits with code 0 but the output
directory's `*.iso` glob is empty, the outcome is Failure with the
artifact-missing reason, never Success. -/
theorem c7_artifact_missing_fails (inp : VerifyInput)
    (h0 : inp.isoFiles = []) (h1 : inp.returncode = 0) :
    (verifyRun inp).1 = false ∧
    (verifyRun inp).2.1 = "ISO file not found in output directory" := by
  unfold verifyRun
  rw [h0]
  dsimp only
  rw [if_pos h1]
  exact ⟨rfl, rfl⟩

/-- Witness for C7 at a concrete input. -/
theorem c7_witness :
    (verifyRun ⟨0, [], [], false, [], true⟩).1 = false ∧
    (verifyRun ⟨0, [], [], false, [], true⟩).2.1 =
      "ISO file not found in output directory" :=
  c7_artifact_missing_fails ⟨0, [], [], false, [], true⟩ rfl rfl

/-- C8: when an image exists but no squashfs payload is located anywhere, an
image larger than 1.0 GB verifies as Success with no size warning; an image
smaller than 1.0 GB fails verification; and the fatal-signal record never
influences the outcome (it is only echoed to the log), in particular it never
forces a failure when the size checks pass. -/
theorem c8_size_heuristic_no_payload (inp : VerifyInput) (name : String)
    (size : Nat) (rest : List (String × Nat)) (b : Bool)
    (hiso : inp.isoFiles = (name, size) :: rest)
    (hsq : squashSearch inp = []) :
    (gigabyte < size → verifyRun inp = (true, name, [])) ∧
    (size < gigabyte → (verifyRun inp).1 = false ∧
      (verifyRun inp).2.1 = "ISO verification failed - may not boot") ∧
    verifyRun {inp with errorDetected := b} = verifyRun inp := by
  refine ⟨?_, ?_, by cases inp; rfl⟩
  · intro h
    have h1 : decide (size > gigabyte) = true := decide_eq_true h
    have h2 : decide (size < gigabyte) = false :=
      decide_eq_false (by omega)
    unfold verifyRun
    rw [hiso]
    dsimp only
    rw [hsq]
    simp [h1, h2]
  · intro h
    have h1 : decide (size > gigabyte) = false :=
      decide_eq_false (by omega)
    have h2 : decide (size < gigabyte) = true := decide_eq_true h
    unfold verifyRun
    rw [hiso]
    dsimp only
    rw [hsq]
    simp [h1, h2]

/-- Witness for C8: a 2 GB image with no payload passes with no warnings; a
0.05 GB image with no payload fails. -/
theorem c8_witness :
    verifyRun ⟨0, [("out.iso", 2147483648)], [], false, [], true⟩ =
      (true, "out.iso", []) ∧
    (verifyRun ⟨1, [("small.iso", 53687091)], [], true, [], false⟩).1
      = false :=
  ⟨(c8_size_heuristic_no_payload ⟨0, [("out.iso", 2147483648)], [], false, [], true⟩
      "out.iso" 2147483648 [] true rfl rfl).1 (by decide),
   ((c8_size_heuristic_no_payload ⟨1, [("small.iso", 53687091)], [], true, [], false⟩
      "small.iso" 53687091 [] false rfl rfl).2.1 (by decide)).1⟩

/-- C9: if zero non-repository artifacts were staged into the (freshly
created) local repository directory, no repository index is generated and no
registration stanza is appended; if at least one artifact was copied, the
index is generated over exactly the staged artifacts and the stanza is
appended.  The hypothesis records that every cache artifact name matches the
`*.pkg.tar.*` glob, which holds because the cache lookup itself globs for
`f"{pkg}-*.pkg.tar.*"`. -/
theorem c9_repo_index_iff_staged (env : StageEnv) (aurPkgs : List String)
    (hmatch : ∀ p f, f ∈ env.cacheFiles p → matchesPkgTar f.1 = true) :
    ((stageResult env aurPkgs).2.2 = [] →
      synthRepo env aurPkgs = (false, [], false)) ∧
    ((stageResult env aurPkgs).2.2 ≠ [] →
      synthRepo env aurPkgs = (true, (stageResult env aurPkgs).2.2, true)) := by
  have hfilter : (stageResult env aurPkgs).2.2.filter matchesPkgTar =
      (stageResult env aurPkgs).2.2 := by
    rw [List.filter_eq_self]
    intro x hx
    rw [stageResult_eq] at hx
    exact stagedFiles_match hmatch x hx
  constructor
  · intro h
    unfold synthRepo
    by_cases ha : aurPkgs.isEmpty
    · rw [if_pos ha]
    · rw [if_neg ha, hfilter, h, if_pos (by rfl)]
  · intro h
    have ha : ¬ aurPkgs.isEmpty := by
      intro hc
      have : aurPkgs = [] := by simpa [List.isEmpty_iff] using hc
      rw [this] at h
      exact h rfl
    unfold synthRepo
    rw [if_neg ha, hfilter, if_neg (by simpa [List.isEmpty_iff] using h)]

/-- Witness for C9: one staged artifact yields an index over it and the
stanza. -/
theorem c9_witness :
    synthRepo ⟨fun _ => false, fun _ => true,
        fun _ => [("a-1.0.pkg.tar.zst", 3)]⟩ ["a"] =
      (true, ["a-1.0.pkg.tar.zst"], true) := by
  have h := (c9_repo_index_iff_staged
    ⟨fun _ => false, fun _ => true, fun _ => [("a-1.0.pkg.tar.zst", 3)]⟩ ["a"]
    (by
      intro p f hf
      simp only [List.mem_singleton] at hf
      rw [hf]
      decide)).2 (by decide)
  rw [h]
  decide

/-- C10: whenever the squashfs search locates any payload (build tree first,
else the output tree's `arch` subdirectory), the verification outcome is
Success regardless of the payload's size and of the image size; a payload
smaller than 0.1 GB only adds a warning, never a failure, even when the image
is below the 1.0 GB threshold. -/
theorem c10_payload_found_success (inp : VerifyInput) (name : String)
    (size : Nat) (rest : List (String × Nat)) (s : Nat) (ss : List Nat)
    (hiso : inp.isoFiles = (name, size) :: rest)
    (hsq : squashSearch inp = s :: ss) :
    (verifyRun inp).1 = true ∧ (verifyRun inp).2.1 = name ∧
    (verifyRun inp).2.2 =
      (if 10 * s < gigabyte then [smallSquashWarn] else []) := by
  unfold verifyRun
  rw [hiso]
  dsimp only
  rw [hsq]
  simp

/-- Witness for C10: a 0.5 GB image with a 0.05 GB payload verifies as
Success with only the small-payload warning. -/
theorem c10_witness :
    (verifyRun ⟨0, [("tiny.iso", 536870912)], [53687091], false, [], true⟩).1
      = true ∧
    (verifyRun ⟨0, [("tiny.iso", 536870912)], [53687091], false, [], true⟩).2.2
      = [smallSquashWarn] := by
  have h := c10_payload_found_success
    ⟨0, [("tiny.iso", 536870912)], [53687091], false, [], true⟩
    "tiny.iso" 536870912 [] 53687091 [] rfl rfl
  exact ⟨h.1, by rw [h.2.2]; decide⟩

end ArchIso
